import Mathlib

/-
Verification of the disruptor-queue repository: a bounded, broadcast-style,
sequence-coordinated ring buffer (core header `src/disruptor_queue.hpp`) and
its bit utilities (`bit_utils.hpp`).

Modelling conventions.  C++ `std::size_t` is modelled as `Nat`, with the wrap
modulo `2 ^ 64` made explicit exactly where the source converts a signed value;
`int64_t` and `int` are modelled as `Int`, with two's-complement truncation to
32 bits made explicit exactly where the source narrows.  The queue itself is
modelled as a labelled transition system: one transition per atomic action of
the source (the fetch-add in `writer::claim_sequence`, one refresh iteration of
the busy loop in `writer::wait_for_no_wrap`, the exit of that loop, the payload
store plus stamp store of `writer::write`/`writer::commit_sequence`, and a
completed `reader::read`).  Ghost fields (`claim_log`, `pub_log`, `read_log`)
record history only; no source behaviour depends on them.  Endpoints are
created during setup, before any traffic, as the source requires.
-/

set_option maxHeartbeats 1000000

namespace DisruptorQueue

/-- Largest value of `int64_t`, `std::numeric_limits<int64_t>::max()`. -/
def INT64_MAX : Int := 9223372036854775807

/-- In `ceil_to_power_of_two`: the constant
`std::numeric_limits<std::size_t>::max() - (std::numeric_limits<std::size_t>::max() >> 1)`,
the high bit alone of a 64-bit word. -/
def MAX_POWER : Nat := 2 ^ 63

/-- Value of the C++ expression `1 << current_bit` in `ceil_to_power_of_two`.
The literal `1` has type `int` (32-bit, two's complement), so the shift is
performed in `int`: for `current_bit < 31` the result is `2 ^ current_bit`,
and at `current_bit = 31` the bit pattern is the sign bit, value `-(2 ^ 31)`
(shift amounts above 31 are never reached by the recursion). -/
def shift_one_int (current_bit : Nat) : Int :=
  if current_bit < 31 then 2 ^ current_bit else -(2 ^ 31)

/-- Conversion of an `int` value to `std::size_t` (wraps modulo `2 ^ 64`). -/
def int_to_size_t (x : Int) : Nat := (x % 2 ^ 64).toNat

/-- From `bit_utils.hpp`: `dq::internal::ceil_to_power_of_two(original, current_bit)`.
The source calls it with `current_bit = 0` (default argument). -/
def ceil_to_power_of_two (original : Nat) (current_bit : Nat) : Nat :=
  if h1 : original > MAX_POWER then MAX_POWER
  else
    let current_power := int_to_size_t (shift_one_int current_bit)
    if h2 : current_power ≥ original ∨ current_bit = MAX_POWER then current_power
    else ceil_to_power_of_two original (current_bit + 1)
termination_by 32 - current_bit
decreasing_by
  simp only [not_or, not_le] at h2
  have hb : current_bit < 31 := by
    by_contra hb
    have hs : shift_one_int current_bit = -(2 ^ 31) := by
      unfold shift_one_int
      rw [if_neg]
      omega
    have hcp : int_to_size_t (shift_one_int current_bit) = 18446744071562067968 := by
      rw [hs]
      decide
    have h4 : MAX_POWER = 9223372036854775808 := by decide
    omega
  omega

/-- From `bit_utils.hpp`: `dq::internal::is_power_of_two(number)`. -/
def is_power_of_two (number : Nat) : Bool :=
  number != 0 && (number &&& (number - 1)) == 0

/-- Two's-complement narrowing of an `int64_t` value to C++ `int` (32 bits),
as performed implicitly when `disruptor_queue::index_from_sequence` passes its
`sequence_type` argument to `mod_power_of_two`, whose parameter type is `int`. -/
def to_int32 (x : Int) : Int := (x + 2147483648) % 4294967296 - 2147483648

/-- From `bit_utils.hpp`: `dq::internal::mod_power_of_two<DIVISOR>(dividend)`,
that is `dividend & (DIVISOR - 1)` on 32-bit `int`.  The mask `DIVISOR - 1` is
non-negative, so the result is the bitwise AND of the mask with the
two's-complement bit pattern of `dividend`, here `dividend % 2 ^ 32`. -/
def mod_power_of_two (D : Nat) (dividend : Int) : Nat :=
  ((dividend % 4294967296).toNat) &&& (D - 1)

/-- From `disruptor_queue.hpp`: `disruptor_queue::index_from_sequence`, which
returns `internal::mod_power_of_two<CAPACITY>(sequence)`; the `int64_t`
sequence is narrowed to `int` at the call. -/
def index_from_sequence (C : Nat) (s : Int) : Nat :=
  mod_power_of_two C (to_int32 s)

/-- From `disruptor_queue.hpp`: `disruptor_queue::capacity()` returns the
template parameter `CAPACITY` unchanged. -/
def capacity (C : Nat) : Nat := C

/-- The two `static_assert` conditions of `disruptor_queue` that constrain the
capacity: `CAPACITY > 0` and `internal::is_power_of_two(CAPACITY)`. -/
def queue_static_asserts (C : Nat) : Bool :=
  decide (C > 0) && is_power_of_two C

theorem and_two_pow_sub_one (n j : Nat) : n &&& (2 ^ j - 1) = n % 2 ^ j := by
  apply Nat.eq_of_testBit_eq
  intro i
  rw [Nat.testBit_and, Nat.testBit_two_pow_sub_one, Nat.testBit_mod_two_pow]
  exact Bool.and_comm _ _

theorem index_from_sequence_lt (C : Nat) (hC : 0 < C) (s : Int) :
    index_from_sequence C s < C := by
  unfold index_from_sequence mod_power_of_two
  calc _ ≤ C - 1 := Nat.and_le_right
    _ < C := by omega

theorem to_int32_emod (s : Int) : to_int32 s % 4294967296 = s % 4294967296 := by
  unfold to_int32
  omega

theorem index_from_sequence_eq_mod (j : Nat) (hj : j ≤ 31) (s : Int) (hs : 0 ≤ s) :
    (index_from_sequence (2 ^ j) s : Int) = s % 2 ^ j := by
  unfold index_from_sequence mod_power_of_two
  rw [to_int32_emod]
  obtain ⟨n, rfl⟩ := Int.eq_ofNat_of_zero_le hs
  have h1 : ((n : Int) % 4294967296).toNat = n % 4294967296 := by omega
  rw [h1, and_two_pow_sub_one]
  have h2 : n % 4294967296 % 2 ^ j = n % 2 ^ j := by
    have : (4294967296 : Nat) = 2 ^ 32 := by norm_num
    rw [this]
    exact Nat.mod_mod_of_dvd n (pow_dvd_pow 2 (by omega))
  rw [h2]
  push_cast
  rfl

/-
The queue coordinator, writer endpoint and reader endpoint of
`disruptor_queue.hpp`, as a transition system.  A queue instantiated at
capacity `C` with `R` readers and `W` writers (all created during setup,
before any traffic, as the source requires) has the state below.
`claim_log`, `pub_log` and `read_log` are ghost history fields.
-/

/-- Progress of one writer through `writer::write`: `idle` outside a call;
`claimed s v` after the fetch-add of `claim_sequence` returned `s` but while
`wait_for_no_wrap` has not yet allowed the write; `ready s v` after
`wait_for_no_wrap` returned, before the payload and stamp stores. -/
inductive WPhase (V : Type) where
  | idle : WPhase V
  | claimed : Int → V → WPhase V
  | ready : Int → V → WPhase V
deriving DecidableEq

/-- State of a `dq::disruptor_queue<V, C>` with `R` readers and `W` writers.
`buffer` models `_buffer`, `slot_sequences` models `_slot_sequences`,
`next_sequence` models `_next_sequence`, `consumer_sequence r` models reader
`r`'s `_consumer_sequence`, and `cached_min_consumer_sequence w` models writer
`w`'s `_cached_min_consumer_sequence`.  `phase`, `claim_log`, `pub_log` and
`read_log` are ghost: `claim_log` lists the values passed to `write` in claim
order, `pub_log` lists `(sequence, value)` publications in the order the
stamp stores happen, and `read_log r` lists the values reader `r` has
returned, in order. -/
structure QState (V : Type) (R W : Nat) where
  buffer : Nat → V
  slot_sequences : Nat → Int
  next_sequence : Int
  consumer_sequence : Fin R → Int
  read_log : Fin R → List V
  cached_min_consumer_sequence : Fin W → Int
  phase : Fin W → WPhase V
  claim_log : List V
  pub_log : List (Int × V)

/-- State after `disruptor_queue`'s constructor and setup: every slot stamp
holds `INITIAL_SEQUENCE = -1`, `_next_sequence` is 0, every reader was created
with `_consumer_sequence = -1` and every writer with
`_cached_min_consumer_sequence = -1`. -/
def initial_state (V : Type) [Inhabited V] (R W : Nat) : QState V R W where
  buffer := fun _ => default
  slot_sequences := fun _ => -1
  next_sequence := 0
  consumer_sequence := fun _ => -1
  read_log := fun _ => []
  cached_min_consumer_sequence := fun _ => -1
  phase := fun _ => WPhase.idle
  claim_log := []
  pub_log := []

/-- From `disruptor_queue::get_min_consumer_sequence`: returns `INT64_MAX` if
there are no readers, else folds `std::min` over every reader's
`_consumer_sequence`, starting from `INT64_MAX`. -/
def get_min_consumer_sequence {V : Type} {R W : Nat} (st : QState V R W) : Int :=
  if R = 0 then INT64_MAX
  else (List.finRange R).foldl (fun m r => min m (st.consumer_sequence r)) INT64_MAX

/-- Effect of the fetch-add in `writer::claim_sequence`: writer `w`, about to
write value `v`, atomically claims `_next_sequence` and increments it. -/
def apply_claim {V : Type} {R W : Nat} (st : QState V R W) (w : Fin W) (v : V) :
    QState V R W :=
  { st with
    next_sequence := st.next_sequence + 1
    phase := Function.update st.phase w (WPhase.claimed st.next_sequence v)
    claim_log := st.claim_log ++ [v] }

/-- Effect of one iteration of the busy loop in `writer::wait_for_no_wrap`:
the writer reloads `_cached_min_consumer_sequence` from
`get_min_consumer_sequence`. -/
def apply_refresh {V : Type} {R W : Nat} (st : QState V R W) (w : Fin W) :
    QState V R W :=
  { st with
    cached_min_consumer_sequence :=
      Function.update st.cached_min_consumer_sequence w (get_min_consumer_sequence st) }

/-- Effect of `writer::wait_for_no_wrap` returning (its loop condition
`wrap_point > cached` is false): the writer may proceed to the stores. -/
def apply_wait_exit {V : Type} {R W : Nat} (st : QState V R W) (w : Fin W)
    (s : Int) (v : V) : QState V R W :=
  { st with phase := Function.update st.phase w (WPhase.ready s v) }

/-- Effect of the payload store in `writer::write` followed by the stamp store
of `writer::commit_sequence`: the value moves into
`_buffer[index_from_sequence(s)]` and the slot stamp is set to `s`. -/
def apply_write_commit {V : Type} {R W : Nat} (C : Nat) (st : QState V R W)
    (w : Fin W) (s : Int) (v : V) : QState V R W :=
  { st with
    buffer := Function.update st.buffer (index_from_sequence C s) v
    slot_sequences := Function.update st.slot_sequences (index_from_sequence C s) s
    phase := Function.update st.phase w WPhase.idle
    pub_log := st.pub_log ++ [(s, v)] }

/-- Effect of a completed `reader::read` (either overload): the reader copies
`_buffer[index_from_sequence(c + 1)]` out and stores `c + 1` into its
`_consumer_sequence`. -/
def apply_read {V : Type} {R W : Nat} (C : Nat) (st : QState V R W) (r : Fin R) :
    QState V R W :=
  { st with
    consumer_sequence :=
      Function.update st.consumer_sequence r (st.consumer_sequence r + 1)
    read_log :=
      Function.update st.read_log r
        (st.read_log r ++
          [st.buffer (index_from_sequence C (st.consumer_sequence r + 1))]) }

/-- From `reader::get_next_read_sequence`: `_consumer_sequence + 1`. -/
def get_next_read_sequence {V : Type} {R W : Nat} (st : QState V R W) (r : Fin R) :
    Int :=
  st.consumer_sequence r + 1

/-- The return-by-value overload `reader::read()`.  `wait_for_data` busy-waits
until `_slot_sequences[read_index]` equals (exactly) the wanted sequence; in a
fixed state the call therefore completes, returning the copied value, only
when that equality already holds, and otherwise `none` models the unfinished
spin. -/
def read {V : Type} {R W : Nat} (C : Nat) (st : QState V R W) (r : Fin R) :
    Option (V × QState V R W) :=
  let next_read_sequence := get_next_read_sequence st r
  let read_index := index_from_sequence C next_read_sequence
  if st.slot_sequences read_index = next_read_sequence then
    some (st.buffer read_index, apply_read C st r)
  else none

/-- The out-parameter overload `reader::read(reference output)`.  The prior
contents `output` of the destination are overwritten by copy-assignment from
the slot; the first component of the result is the final contents of the
destination. -/
def read_into {V : Type} {R W : Nat} (C : Nat) (st : QState V R W) (r : Fin R)
    (output : V) : Option (V × QState V R W) :=
  let next_read_sequence := get_next_read_sequence st r
  let read_index := index_from_sequence C next_read_sequence
  if st.slot_sequences read_index = next_read_sequence then
    some (st.buffer read_index, apply_read C st r)
  else none

/-- One atomic action of some endpoint of the queue, at capacity `C`. -/
inductive Step {V : Type} {R W : Nat} (C : Nat) :
    QState V R W → QState V R W → Prop where
  | claim_sequence (st : QState V R W) (w : Fin W) (v : V) :
      st.phase w = WPhase.idle → Step C st (apply_claim st w v)
  | wait_refresh (st : QState V R W) (w : Fin W) (s : Int) (v : V) :
      st.phase w = WPhase.claimed s v → Step C st (apply_refresh st w)
  | wait_exit (st : QState V R W) (w : Fin W) (s : Int) (v : V) :
      st.phase w = WPhase.claimed s v →
      s - (C : Int) ≤ st.cached_min_consumer_sequence w →
      Step C st (apply_wait_exit st w s v)
  | write_commit (st : QState V R W) (w : Fin W) (s : Int) (v : V) :
      st.phase w = WPhase.ready s v → Step C st (apply_write_commit C st w s v)
  | reader_read (st : QState V R W) (r : Fin R) :
      st.slot_sequences (index_from_sequence C (st.consumer_sequence r + 1)) =
        st.consumer_sequence r + 1 →
      Step C st (apply_read C st r)

/-- States of the queue reachable from setup by endpoint traffic. -/
def Reachable {V : Type} [Inhabited V] {R W : Nat} (C : Nat)
    (st : QState V R W) : Prop :=
  Relation.ReflTransGen (Step C) (initial_state V R W) st

theorem foldl_min_le_init {A : Type} (f : A → Int) (l : List A) (a : Int) :
    l.foldl (fun m x => min m (f x)) a ≤ a := by
  induction l generalizing a with
  | nil => simp
  | cons x t ih => exact le_trans (ih (min a (f x))) (min_le_left a (f x))

theorem foldl_min_le_mem {A : Type} (f : A → Int) (x : A) :
    ∀ (l : List A) (a : Int), x ∈ l → l.foldl (fun m y => min m (f y)) a ≤ f x := by
  intro l
  induction l with
  | nil => intro a hx; cases hx
  | cons y t ih =>
    intro a hx
    rcases List.mem_cons.mp hx with rfl | h
    · exact le_trans (foldl_min_le_init f t (min a (f x))) (min_le_right a (f x))
    · exact ih (min a (f y)) h

theorem le_foldl_min {A : Type} (f : A → Int) (b : Int) :
    ∀ (l : List A) (a : Int), b ≤ a → (∀ x ∈ l, b ≤ f x) →
      b ≤ l.foldl (fun m y => min m (f y)) a := by
  intro l
  induction l with
  | nil => intro a ha _; simpa using ha
  | cons y t ih =>
    intro a ha h
    exact ih (min a (f y)) (le_min ha (h y (List.mem_cons_self y t)))
      (fun x hx => h x (List.mem_cons_of_mem y hx))

theorem get_min_le_consumer {V : Type} {R W : Nat} (st : QState V R W) (r : Fin R) :
    get_min_consumer_sequence st ≤ st.consumer_sequence r := by
  unfold get_min_consumer_sequence
  rw [if_neg (Nat.pos_iff_ne_zero.mp r.pos)]
  exact foldl_min_le_mem st.consumer_sequence r (List.finRange R) INT64_MAX
    (List.mem_finRange r)

theorem get_min_le_max {V : Type} {R W : Nat} (st : QState V R W) :
    get_min_consumer_sequence st ≤ INT64_MAX := by
  unfold get_min_consumer_sequence
  split
  · exact le_refl INT64_MAX
  · exact foldl_min_le_init st.consumer_sequence (List.finRange R) INT64_MAX

theorem le_get_min {V : Type} {R W : Nat} (st : QState V R W) (b : Int)
    (hb : b ≤ INT64_MAX) (h : ∀ r, b ≤ st.consumer_sequence r) :
    b ≤ get_min_consumer_sequence st := by
  unfold get_min_consumer_sequence
  split
  · exact hb
  · exact le_foldl_min st.consumer_sequence b (List.finRange R) INT64_MAX hb
      (fun x _ => h x)

theorem get_min_mono {V : Type} {R W : Nat} (st st2 : QState V R W)
    (h : ∀ r, st.consumer_sequence r ≤ st2.consumer_sequence r) :
    get_min_consumer_sequence st ≤ get_min_consumer_sequence st2 :=
  le_get_min st2 (get_min_consumer_sequence st) (get_min_le_max st)
    (fun r => le_trans (get_min_le_consumer st r) (h r))

theorem lookup_of_mem_of_nodup {V : Type} :
    ∀ (l : List (Int × V)) (s : Int) (v : V), (l.map Prod.fst).Nodup →
      (s, v) ∈ l → l.lookup s = some v := by
  intro l
  induction l with
  | nil => intro s v _ hm; cases hm
  | cons p t ih =>
    intro s v hn hm
    simp only [List.map_cons, List.nodup_cons] at hn
    rcases List.mem_cons.mp hm with rfl | h
    · simp [List.lookup]
    · have hp : s ≠ p.1 := by
        intro he
        exact hn.1 (he ▸ List.mem_map.mpr ⟨(s, v), h, rfl⟩)
      have hb : (s == p.1) = false := by simpa using hp
      obtain ⟨k, b⟩ := p
      simp only [List.lookup, hb]
      exact ih s v hn.2 h

theorem mem_of_lookup {V : Type} :
    ∀ (l : List (Int × V)) (s : Int) (v : V), l.lookup s = some v → (s, v) ∈ l := by
  intro l
  induction l with
  | nil => intro s v h; simp [List.lookup] at h
  | cons p t ih =>
    intro s v h
    obtain ⟨k, b⟩ := p
    by_cases hk : (s == k) = true
    · have hks : s = k := by simpa using hk
      simp only [List.lookup, hk] at h
      subst hks
      cases h
      exact List.mem_cons_self _ _
    · have hk2 : (s == k) = false := by simpa using hk
      simp only [List.lookup, hk2] at h
      exact List.mem_cons_of_mem _ (ih s v h)

theorem lookup_append_some {V : Type} :
    ∀ (l l2 : List (Int × V)) (s : Int) (v : V), l.lookup s = some v →
      (l ++ l2).lookup s = some v := by
  intro l
  induction l with
  | nil => intro l2 s v h; simp [List.lookup] at h
  | cons p t ih =>
    intro l2 s v h
    obtain ⟨k, b⟩ := p
    by_cases hk : (s == k) = true
    · simp only [List.lookup, hk] at h
      simp only [List.cons_append, List.lookup, hk]
      exact h
    · have hk2 : (s == k) = false := by simpa using hk
      simp only [List.lookup, hk2] at h
      simp only [List.cons_append, List.lookup, hk2]
      exact ih l2 s v h

/-- Ghost view: the value published at sequence `s`, if any. -/
def pub_val {V : Type} {R W : Nat} (st : QState V R W) (s : Int) : Option V :=
  st.pub_log.lookup s

/-- Ghost view: the most recent completed publication into slot `i`
(the last entry of `pub_log` whose sequence maps to slot `i`). -/
def last_slot_pub {V : Type} {R W : Nat} (C : Nat) (st : QState V R W) (i : Nat) :
    Option (Int × V) :=
  (st.pub_log.filter (fun p => index_from_sequence C p.1 == i)).getLast?

/-- Writer `w` holds claimed sequence `s` for value `v` and has not yet
published it. -/
def inflight {V : Type} {R W : Nat} (st : QState V R W) (w : Fin W) (s : Int)
    (v : V) : Prop :=
  st.phase w = WPhase.claimed s v ∨ st.phase w = WPhase.ready s v

/-- The inductive invariant of the queue's coordination protocol. -/
structure Inv {V : Type} {R W : Nat} (C : Nat) (st : QState V R W) : Prop where
  claim_count : st.next_sequence = st.claim_log.length
  inflight_bounds : ∀ w s v, inflight st w s v → 0 ≤ s ∧ s < st.next_sequence
  inflight_value : ∀ w s v, inflight st w s v → st.claim_log[s.toNat]? = some v
  inflight_distinct : ∀ w w2 s v s2 v2, w ≠ w2 → inflight st w s v →
    inflight st w2 s2 v2 → s ≠ s2
  pub_bounds : ∀ s v, (s, v) ∈ st.pub_log → 0 ≤ s ∧ s < st.next_sequence
  pub_value : ∀ s v, (s, v) ∈ st.pub_log → st.claim_log[s.toNat]? = some v
  pub_nodup : (st.pub_log.map Prod.fst).Nodup
  inflight_unpub : ∀ w s v, inflight st w s v → ∀ v2, (s, v2) ∉ st.pub_log
  stamp_unpub : ∀ i, last_slot_pub C st i = none → st.slot_sequences i = -1
  stamp_pub : ∀ i s v, last_slot_pub C st i = some (s, v) →
    st.slot_sequences i = s ∧ st.buffer i = v
  reader_count : ∀ r, st.consumer_sequence r + 1 = ((st.read_log r).length : Int)
  reader_values : ∀ r (n : Nat), n < (st.read_log r).length →
    pub_val st n = (st.read_log r)[n]?
  cache_lower : ∀ w,
    st.cached_min_consumer_sequence w ≤ get_min_consumer_sequence st
  ready_no_wrap : ∀ w s v, st.phase w = WPhase.ready s v →
    s - (C : Int) ≤ st.cached_min_consumer_sequence w

theorem Inv_initial {V : Type} [Inhabited V] (R W C : Nat) :
    Inv C (initial_state V R W) := by
  refine ⟨rfl, ?_, ?_, ?_, ?_, ?_, ?_, ?_, ?_, ?_, ?_, ?_, ?_, ?_⟩
  · intro w s v h
    simp [inflight, initial_state] at h
  · intro w s v h
    simp [inflight, initial_state] at h
  · intro w w2 s v s2 v2 _ h
    simp [inflight, initial_state] at h
  · intro s v h
    simp [initial_state] at h
  · intro s v h
    simp [initial_state] at h
  · simp [initial_state]
  · intro w s v h
    simp [inflight, initial_state] at h
  · intro i _
    rfl
  · intro i s v h
    simp [last_slot_pub, initial_state] at h
  · intro r
    simp [initial_state]
  · intro r n hn
    simp [initial_state] at hn
  · intro w
    refine le_get_min _ _ (by simp [initial_state, INT64_MAX]) ?_
    intro r
    exact le_refl _
  · intro w s v h
    simp [initial_state] at h

theorem Inv_claim {V : Type} {R W : Nat} {C : Nat} (st : QState V R W)
    (w : Fin W) (v : V) (hw : st.phase w = WPhase.idle) (h : Inv C st) :
    Inv C (apply_claim st w v) := by
  have hcount := h.claim_count
  refine ⟨?_, ?_, ?_, ?_, ?_, ?_, ?_, ?_, ?_, ?_, ?_, ?_, ?_, ?_⟩
  · simp only [apply_claim, List.length_append, List.length_singleton]
    push_cast
    omega
  · intro w2 s v2 hif
    simp only [apply_claim, inflight] at hif ⊢
    rcases eq_or_ne w2 w with rfl | hne
    · rw [Function.update_same] at hif
      rcases hif with hh | hh
      · cases hh
        omega
      · cases hh
    · rw [Function.update_noteq hne] at hif
      have hb := h.inflight_bounds w2 s v2 hif
      omega
  · intro w2 s v2 hif
    simp only [apply_claim, inflight] at hif ⊢
    rcases eq_or_ne w2 w with rfl | hne
    · rw [Function.update_same] at hif
      rcases hif with hh | hh
      · cases hh
        have hts : st.next_sequence.toNat = st.claim_log.length := by omega
        rw [hts]
        exact List.getElem?_concat_length st.claim_log v
      · cases hh
    · rw [Function.update_noteq hne] at hif
      have hb := h.inflight_bounds w2 s v2 hif
      have hts : s.toNat < st.claim_log.length := by omega
      rw [List.getElem?_append_left hts]
      exact h.inflight_value w2 s v2 hif
  · intro w2 w3 s v2 s2 v3 hne hif2 hif3
    simp only [apply_claim, inflight] at hif2 hif3
    rcases eq_or_ne w2 w with rfl | hne2
    · rw [Function.update_same] at hif2
      rw [Function.update_noteq (Ne.symm hne)] at hif3
      have hb := h.inflight_bounds w3 s2 v3 hif3
      rcases hif2 with hh | hh
      · cases hh
        omega
      · cases hh
    · rw [Function.update_noteq hne2] at hif2
      rcases eq_or_ne w3 w with rfl | hne3
      · rw [Function.update_same] at hif3
        have hb := h.inflight_bounds w2 s v2 hif2
        rcases hif3 with hh | hh
        · cases hh
          omega
        · cases hh
      · rw [Function.update_noteq hne3] at hif3
        exact h.inflight_distinct w2 w3 s v2 s2 v3 hne hif2 hif3
  · intro s v2 hm
    have hb := h.pub_bounds s v2 hm
    simp only [apply_claim]
    omega
  · intro s v2 hm
    have hb := h.pub_bounds s v2 hm
    have hts : s.toNat < st.claim_log.length := by omega
    simp only [apply_claim]
    rw [List.getElem?_append_left hts]
    exact h.pub_value s v2 hm
  · exact h.pub_nodup
  · intro w2 s v2 hif v3 hm
    simp only [apply_claim, inflight] at hif
    rcases eq_or_ne w2 w with rfl | hne
    · rw [Function.update_same] at hif
      have hb := h.pub_bounds s v3 hm
      rcases hif with hh | hh
      · cases hh
        omega
      · cases hh
    · rw [Function.update_noteq hne] at hif
      exact h.inflight_unpub w2 s v2 hif v3 hm
  · exact h.stamp_unpub
  · exact h.stamp_pub
  · exact h.reader_count
  · exact h.reader_values
  · exact h.cache_lower
  · intro w2 s v2 hph
    simp only [apply_claim] at hph
    rcases eq_or_ne w2 w with rfl | hne
    · rw [Function.update_same] at hph
      cases hph
    · rw [Function.update_noteq hne] at hph
      exact h.ready_no_wrap w2 s v2 hph

theorem Inv_refresh {V : Type} {R W : Nat} {C : Nat} (st : QState V R W)
    (w : Fin W) (s : Int) (v : V) (hw : st.phase w = WPhase.claimed s v)
    (h : Inv C st) : Inv C (apply_refresh st w) := by
  refine ⟨h.claim_count, h.inflight_bounds, h.inflight_value, h.inflight_distinct,
    h.pub_bounds, h.pub_value, h.pub_nodup, h.inflight_unpub, h.stamp_unpub,
    h.stamp_pub, h.reader_count, h.reader_values, ?_, ?_⟩
  · intro w2
    simp only [apply_refresh]
    rcases eq_or_ne w2 w with rfl | hne
    · rw [Function.update_same]
      exact le_refl _
    · rw [Function.update_noteq hne]
      exact h.cache_lower w2
  · intro w2 s2 v2 hph
    simp only [apply_refresh] at hph ⊢
    rcases eq_or_ne w2 w with rfl | hne
    · rw [hw] at hph
      cases hph
    · rw [Function.update_noteq hne]
      exact h.ready_no_wrap w2 s2 v2 hph

theorem Inv_wait_exit {V : Type} {R W : Nat} {C : Nat} (st : QState V R W)
    (w : Fin W) (s : Int) (v : V) (hw : st.phase w = WPhase.claimed s v)
    (hcache : s - (C : Int) ≤ st.cached_min_consumer_sequence w)
    (h : Inv C st) : Inv C (apply_wait_exit st w s v) := by
  have hback : ∀ w2 a b, inflight (apply_wait_exit st w s v) w2 a b →
      inflight st w2 a b := by
    intro w2 a b hif
    simp only [inflight, apply_wait_exit] at hif ⊢
    rcases eq_or_ne w2 w with rfl | hne
    · rw [Function.update_same] at hif
      rcases hif with hh | hh
      · cases hh
      · cases hh
        exact Or.inl hw
    · rw [Function.update_noteq hne] at hif
      exact hif
  refine ⟨h.claim_count, ?_, ?_, ?_, h.pub_bounds, h.pub_value, h.pub_nodup,
    ?_, h.stamp_unpub, h.stamp_pub, h.reader_count, h.reader_values,
    h.cache_lower, ?_⟩
  · intro w2 a b hif
    exact h.inflight_bounds w2 a b (hback w2 a b hif)
  · intro w2 a b hif
    exact h.inflight_value w2 a b (hback w2 a b hif)
  · intro w2 w3 a b a2 b2 hne hif2 hif3
    exact h.inflight_distinct w2 w3 a b a2 b2 hne (hback w2 a b hif2)
      (hback w3 a2 b2 hif3)
  · intro w2 a b hif v2 hm
    exact h.inflight_unpub w2 a b (hback w2 a b hif) v2 hm
  · intro w2 s2 v2 hph
    simp only [apply_wait_exit] at hph ⊢
    rcases eq_or_ne w2 w with rfl | hne
    · rw [Function.update_same] at hph
      cases hph
      exact hcache
    · rw [Function.update_noteq hne] at hph
      exact h.ready_no_wrap w2 s2 v2 hph

theorem last_slot_pub_spec {V : Type} {R W : Nat} (C : Nat) (st : QState V R W)
    (i : Nat) (p : Int × V) (hp : last_slot_pub C st i = some p) :
    p ∈ st.pub_log ∧ index_from_sequence C p.1 = i := by
  unfold last_slot_pub at hp
  obtain ⟨l2, hl⟩ := List.getLast?_eq_some_iff.mp hp
  have hmem : p ∈ st.pub_log.filter (fun q => index_from_sequence C q.1 == i) := by
    rw [hl]
    exact List.mem_append_right _ (List.mem_singleton_self p)
  have hmf := List.mem_filter.mp hmem
  exact ⟨hmf.1, by simpa using hmf.2⟩

theorem last_slot_pub_commit_same {V : Type} {R W : Nat} (C : Nat)
    (st : QState V R W) (w : Fin W) (s : Int) (v : V) :
    last_slot_pub C (apply_write_commit C st w s v) (index_from_sequence C s) =
      some (s, v) := by
  unfold last_slot_pub
  simp only [apply_write_commit]
  rw [List.filter_append]
  have hq : List.filter (fun q : Int × V =>
      index_from_sequence C q.1 == index_from_sequence C s) [(s, v)] = [(s, v)] := by
    simp
  rw [hq]
  exact List.getLast?_concat _

theorem last_slot_pub_commit_ne {V : Type} {R W : Nat} (C : Nat)
    (st : QState V R W) (w : Fin W) (s : Int) (v : V) (i : Nat)
    (hne : index_from_sequence C s ≠ i) :
    last_slot_pub C (apply_write_commit C st w s v) i = last_slot_pub C st i := by
  unfold last_slot_pub
  simp only [apply_write_commit]
  rw [List.filter_append]
  have hq : List.filter (fun q : Int × V =>
      index_from_sequence C q.1 == i) [(s, v)] = [] := by
    simp [hne]
  rw [hq, List.append_nil]

theorem Inv_commit {V : Type} {R W : Nat} {C : Nat} (st : QState V R W)
    (w : Fin W) (s : Int) (v : V) (hw : st.phase w = WPhase.ready s v)
    (h : Inv C st) : Inv C (apply_write_commit C st w s v) := by
  have hin : inflight st w s v := Or.inr hw
  have hb := h.inflight_bounds w s v hin
  have hnv := h.inflight_value w s v hin
  have hnp := h.inflight_unpub w s v hin
  have hnotin : s ∉ st.pub_log.map Prod.fst := by
    intro hm
    obtain ⟨p, hpmem, hpe⟩ := List.mem_map.mp hm
    obtain ⟨a, b⟩ := p
    cases hpe
    exact hnp b hpmem
  have hback : ∀ w2 a b, inflight (apply_write_commit C st w s v) w2 a b →
      w2 ≠ w ∧ inflight st w2 a b := by
    intro w2 a b hif
    simp only [inflight, apply_write_commit] at hif ⊢
    rcases eq_or_ne w2 w with rfl | hne
    · rw [Function.update_same] at hif
      rcases hif with hh | hh
      · cases hh
      · cases hh
    · rw [Function.update_noteq hne] at hif
      exact ⟨hne, hif⟩
  refine ⟨h.claim_count, ?_, ?_, ?_, ?_, ?_, ?_, ?_, ?_, ?_, h.reader_count,
    ?_, h.cache_lower, ?_⟩
  · intro w2 a b hif
    exact h.inflight_bounds w2 a b (hback w2 a b hif).2
  · intro w2 a b hif
    exact h.inflight_value w2 a b (hback w2 a b hif).2
  · intro w2 w3 a b a2 b2 hne hif2 hif3
    exact h.inflight_distinct w2 w3 a b a2 b2 hne (hback w2 a b hif2).2
      (hback w3 a2 b2 hif3).2
  · intro a b hm
    simp only [apply_write_commit] at hm ⊢
    rcases List.mem_append.mp hm with hm2 | hm2
    · exact h.pub_bounds a b hm2
    · rw [List.mem_singleton] at hm2
      cases hm2
      exact hb
  · intro a b hm
    simp only [apply_write_commit] at hm ⊢
    rcases List.mem_append.mp hm with hm2 | hm2
    · exact h.pub_value a b hm2
    · rw [List.mem_singleton] at hm2
      cases hm2
      exact hnv
  · simp only [apply_write_commit, List.map_append, List.map_singleton]
    refine List.Nodup.append h.pub_nodup (List.nodup_singleton s) ?_
    intro a ha ha2
    rw [List.mem_singleton] at ha2
    subst ha2
    exact hnotin ha
  · intro w2 a b hif v2 hm
    obtain ⟨hne, hif2⟩ := hback w2 a b hif
    simp only [apply_write_commit] at hm
    rcases List.mem_append.mp hm with hm2 | hm2
    · exact h.inflight_unpub w2 a b hif2 v2 hm2
    · rw [List.mem_singleton, Prod.mk.injEq] at hm2
      exact h.inflight_distinct w2 w a b s v hne hif2 hin hm2.1
  · intro i hnone
    rcases eq_or_ne (index_from_sequence C s) i with rfl | hnei
    · rw [last_slot_pub_commit_same C st w s v] at hnone
      cases hnone
    · rw [last_slot_pub_commit_ne C st w s v i hnei] at hnone
      simp only [apply_write_commit]
      rw [Function.update_noteq (Ne.symm hnei)]
      exact h.stamp_unpub i hnone
  · intro i a b hsome
    rcases eq_or_ne (index_from_sequence C s) i with rfl | hnei
    · rw [last_slot_pub_commit_same C st w s v] at hsome
      rw [Option.some_inj, Prod.mk.injEq] at hsome
      obtain ⟨rfl, rfl⟩ := hsome
      simp only [apply_write_commit]
      rw [Function.update_same, Function.update_same]
      exact ⟨rfl, rfl⟩
    · rw [last_slot_pub_commit_ne C st w s v i hnei] at hsome
      simp only [apply_write_commit]
      rw [Function.update_noteq (Ne.symm hnei), Function.update_noteq (Ne.symm hnei)]
      exact h.stamp_pub i a b hsome
  · intro r n hn
    simp only [apply_write_commit] at hn ⊢
    have hold := h.reader_values r n hn
    have hsome : pub_val st n = some ((st.read_log r).get ⟨n, hn⟩) := by
      rw [hold]
      exact List.getElem?_eq_getElem hn
    unfold pub_val at hsome ⊢
    rw [lookup_append_some st.pub_log [(s, v)] n _ hsome]
    rw [← hsome]
    exact hold
  · intro w2 s2 v2 hph
    simp only [apply_write_commit] at hph ⊢
    rcases eq_or_ne w2 w with rfl | hne
    · rw [Function.update_same] at hph
      cases hph
    · rw [Function.update_noteq hne] at hph
      exact h.ready_no_wrap w2 s2 v2 hph

theorem Inv_read {V : Type} {R W : Nat} {C : Nat} (st : QState V R W) (r : Fin R)
    (hg : st.slot_sequences (index_from_sequence C (st.consumer_sequence r + 1)) =
      st.consumer_sequence r + 1)
    (h : Inv C st) : Inv C (apply_read C st r) := by
  have hrc := h.reader_count r
  have hlen : (0 : Int) ≤ ((st.read_log r).length : Int) := Int.ofNat_nonneg _
  cases hlp : last_slot_pub C st
      (index_from_sequence C (st.consumer_sequence r + 1)) with
  | none =>
    exfalso
    have hz := h.stamp_unpub _ hlp
    rw [hg] at hz
    omega
  | some p =>
    obtain ⟨s2, v2⟩ := p
    have hsp := h.stamp_pub _ s2 v2 hlp
    have hs2 : s2 = st.consumer_sequence r + 1 := by
      have := hsp.1
      rw [hg] at this
      omega
    have hmem := (last_slot_pub_spec C st _ _ hlp).1
    rw [hs2] at hmem
    have hpv : pub_val st (st.consumer_sequence r + 1) = some v2 :=
      lookup_of_mem_of_nodup _ _ _ h.pub_nodup hmem
    have hbuf := hsp.2
    refine ⟨h.claim_count, h.inflight_bounds, h.inflight_value, h.inflight_distinct,
      h.pub_bounds, h.pub_value, h.pub_nodup, h.inflight_unpub, h.stamp_unpub,
      h.stamp_pub, ?_, ?_, ?_, h.ready_no_wrap⟩
    · intro r2
      simp only [apply_read]
      rcases eq_or_ne r2 r with rfl | hne
      · rw [Function.update_same, Function.update_same, List.length_append,
          List.length_singleton]
        push_cast
        omega
      · rw [Function.update_noteq hne, Function.update_noteq hne]
        exact h.reader_count r2
    · intro r2 n hn
      simp only [apply_read] at hn ⊢
      rcases eq_or_ne r2 r with rfl | hne
      · rw [Function.update_same] at hn ⊢
        rw [List.length_append, List.length_singleton] at hn
        rcases Nat.lt_or_ge n (st.read_log r2).length with hlt | hge
        · rw [List.getElem?_append_left hlt]
          exact h.reader_values r2 n hlt
        · have hEq : n = (st.read_log r2).length := by omega
          subst hEq
          rw [List.getElem?_concat_length, hbuf]
          have hc : (((st.read_log r2).length : Nat) : Int) =
              st.consumer_sequence r2 + 1 := hrc.symm
          have hfin : pub_val st (((st.read_log r2).length : Nat) : Int) = some v2 := by
            rw [hc]
            exact hpv
          exact hfin
      · rw [Function.update_noteq hne] at hn ⊢
        exact h.reader_values r2 n hn
    · intro w2
      have hmono : get_min_consumer_sequence st ≤
          get_min_consumer_sequence (apply_read C st r) := by
        apply get_min_mono
        intro r2
        simp only [apply_read]
        rcases eq_or_ne r2 r with rfl | hne
        · rw [Function.update_same]
          omega
        · rw [Function.update_noteq hne]
      exact le_trans (h.cache_lower w2) hmono

theorem Inv_step {V : Type} {R W : Nat} {C : Nat} (st st2 : QState V R W)
    (hs : Step C st st2) (h : Inv C st) : Inv C st2 := by
  cases hs with
  | claim_sequence w v hw => exact Inv_claim st w v hw h
  | wait_refresh w s v hw => exact Inv_refresh st w s v hw h
  | wait_exit w s v hw hc => exact Inv_wait_exit st w s v hw hc h
  | write_commit w s v hw => exact Inv_commit st w s v hw h
  | reader_read r hg => exact Inv_read st r hg h

theorem Inv_reachable {V : Type} [Inhabited V] {R W : Nat} (C : Nat)
    (st : QState V R W) (h : Reachable C st) : Inv C st := by
  unfold Reachable at h
  induction h with
  | refl => exact Inv_initial R W C
  | tail hab hbc ih => exact Inv_step _ _ hbc ih

/-- C7: for every capacity parameter `N`, `capacity()` returns exactly `N`,
and instantiation with a non-power-of-two `N` is rejected statically (the
`static_assert` on `is_power_of_two(CAPACITY)` fails). -/
theorem C7_capacity_and_static_reject (N : Nat) :
    capacity N = N ∧
      (is_power_of_two N = false → queue_static_asserts N = false) := by
  refine ⟨rfl, ?_⟩
  intro hN
  simp [queue_static_asserts, hN]

theorem C7_capacity_and_static_reject_witness :
    capacity 12 = 12 ∧ queue_static_asserts 12 = false :=
  ⟨(C7_capacity_and_static_reject 12).1,
    (C7_capacity_and_static_reject 12).2 (by decide)⟩

/-- C8: at the failing input `2 ^ 31 = 2147483648` (whose smallest enclosing
power of two, `2 ^ 31` itself, is representable), `ceil_to_power_of_two`
returns `18446744071562067968 = 2 ^ 64 - 2 ^ 31`, which is not even a power of
two: the `int`-typed literal `1` in `1 << current_bit` overflows at bit 31, so
every input in `(2 ^ 30, 2 ^ 63]` yields this value instead of the smallest
power of two greater than or equal to the input. -/
theorem C8_ceil_to_power_of_two_bug_at_two_pow_31 :
    ceil_to_power_of_two 2147483648 0 = 18446744071562067968 ∧
      ceil_to_power_of_two 2147483648 0 ≠ 2147483648 := by
  have hv : ceil_to_power_of_two 2147483648 0 = 18446744071562067968 := by
    simp [ceil_to_power_of_two, MAX_POWER, shift_one_int, int_to_size_t]
  rw [hv]
  exact ⟨rfl, by norm_num⟩

/-- C10: for every non-negative 64-bit sequence `s` and every power-of-two
capacity `2 ^ j ≤ 2 ^ 31`, `index_from_sequence(s)` equals `s mod 2 ^ j`, even
though `mod_power_of_two` narrows the 64-bit dividend to 32-bit `int` before
masking: the truncation modulo `2 ^ 32` preserves the low bits selected by the
mask. -/
theorem C10_index_narrowing_preserves_mod (j : Nat) (hj : j ≤ 31) (s : Int)
    (h0 : 0 ≤ s) (h1 : s < 2 ^ 63) :
    (index_from_sequence (2 ^ j) s : Int) = s % 2 ^ j :=
  index_from_sequence_eq_mod j hj s h0

theorem C10_index_narrowing_preserves_mod_witness :
    (index_from_sequence (2 ^ 1) 5 : Int) = 5 % 2 ^ 1 :=
  C10_index_narrowing_preserves_mod 1 (by norm_num) 5 (by norm_num) (by norm_num)

/-- C5: in every reachable state, `next_sequence` equals the number of claim
operations performed so far (the length of the ghost claim log), whether or
not the corresponding publications completed; `next_sequence` is 0 before any
write, and a claim performed before any other claim receives sequence 0. -/
theorem C5_next_sequence_counts_claims {V : Type} [Inhabited V] {R W : Nat}
    (C : Nat) (st : QState V R W) (h : Reachable C st) :
    st.next_sequence = st.claim_log.length ∧
      (initial_state V R W).next_sequence = 0 ∧
      (∀ w v, st.claim_log = [] →
        (apply_claim st w v).phase w = WPhase.claimed 0 v) := by
  have hInv := Inv_reachable C st h
  refine ⟨hInv.claim_count, rfl, ?_⟩
  intro w v hemp
  simp only [apply_claim]
  rw [Function.update_same]
  have hz : st.next_sequence = 0 := by
    rw [hInv.claim_count, hemp]
    rfl
  rw [hz]

/-- C6: in every reachable state, each writer's cached minimum consumer
sequence is a lower bound on the true minimum consumer sequence over all
readers (never over-reporting it), and the cache is updated only inside
`wait_for_no_wrap`: the claim, wait-exit, commit and read actions all leave
every writer's cache unchanged. -/
theorem C6_cached_min_is_lower_bound {V : Type} [Inhabited V] {R W : Nat}
    (C : Nat) (st : QState V R W) (h : Reachable C st) :
    (∀ w, st.cached_min_consumer_sequence w ≤ get_min_consumer_sequence st) ∧
      (∀ w v, (apply_claim st w v).cached_min_consumer_sequence =
        st.cached_min_consumer_sequence) ∧
      (∀ w s v, (apply_wait_exit st w s v).cached_min_consumer_sequence =
        st.cached_min_consumer_sequence) ∧
      (∀ w s v, (apply_write_commit C st w s v).cached_min_consumer_sequence =
        st.cached_min_consumer_sequence) ∧
      (∀ r, (apply_read C st r).cached_min_consumer_sequence =
        st.cached_min_consumer_sequence) :=
  ⟨(Inv_reachable C st h).cache_lower, fun _ _ => rfl, fun _ _ _ => rfl,
    fun _ _ _ => rfl, fun _ => rfl⟩

/-- C2: in every reachable state, a writer that has passed `wait_for_no_wrap`
for claimed sequence `s` (and so is about to perform its payload store)
satisfies `s - CAPACITY ≤ min_consumer_sequence`, i.e.
`claimed - min_consumer_sequence ≤ CAPACITY`; in particular every reader has
consumed through sequence `s - CAPACITY`, so the slot about to be overwritten
has been consumed by every reader. -/
theorem C2_backpressure_at_payload_store {V : Type} [Inhabited V] {R W : Nat}
    (j : Nat) (hj : j ≤ 30) (st : QState V R W) (h : Reachable (2 ^ j) st)
    (w : Fin W) (s : Int) (v : V) (hw : st.phase w = WPhase.ready s v) :
    s - ((2 ^ j : Nat) : Int) ≤ get_min_consumer_sequence st ∧
      ∀ r : Fin R, s - ((2 ^ j : Nat) : Int) ≤ st.consumer_sequence r := by
  have hInv := Inv_reachable _ st h
  have h1 := hInv.ready_no_wrap w s v hw
  have h2 := le_trans h1 (hInv.cache_lower w)
  exact ⟨h2, fun r => le_trans h2 (get_min_le_consumer st r)⟩

/-- C4: every slot stamp is `-1` immediately after construction; in every
reachable state, a slot with no completed publication still stamps `-1`, and a
slot whose most recent completed publication had claimed sequence `s` stamps
exactly `s`, with `stamp mod CAPACITY` equal to the slot index. -/
theorem C4_stamp_invariant {V : Type} [Inhabited V] {R W : Nat}
    (j : Nat) (hj : j ≤ 30) (st : QState V R W) (h : Reachable (2 ^ j) st)
    (i : Nat) (hi : i < 2 ^ j) :
    ((initial_state V R W).slot_sequences i = -1) ∧
      (last_slot_pub (2 ^ j) st i = none → st.slot_sequences i = -1) ∧
      (∀ s v, last_slot_pub (2 ^ j) st i = some (s, v) →
        st.slot_sequences i = s ∧
          st.slot_sequences i % ((2 ^ j : Nat) : Int) = (i : Int)) := by
  have hInv := Inv_reachable _ st h
  refine ⟨rfl, hInv.stamp_unpub i, ?_⟩
  intro s v hsome
  have hsp := hInv.stamp_pub i s v hsome
  refine ⟨hsp.1, ?_⟩
  have hspec := last_slot_pub_spec _ st i (s, v) hsome
  have hbnd := hInv.pub_bounds s v hspec.1
  have hmod := index_from_sequence_eq_mod j (by omega) s hbnd.1
  rw [hsp.1]
  push_cast
  rw [← hmod]
  exact_mod_cast hspec.2

/-- C3: a reader completes a read only when the stamp of the slot for
sequence `c + 1` is exactly `c + 1` (a mismatched stamp leaves the read
spinning), and then sets its consumer sequence to `c + 1`; consequently, in
every reachable state, a reader that has completed `M` reads has observed
exactly the items published at sequences `0` to `M - 1`, in claim order, with
no duplicates and no gaps. -/
theorem C3_reader_equality_and_completeness {V : Type} [Inhabited V]
    {R W : Nat} (j : Nat) (hj : j ≤ 30) (st : QState V R W)
    (h : Reachable (2 ^ j) st) (r : Fin R) :
    (∀ val st2, read (2 ^ j) st r = some (val, st2) →
      st.slot_sequences
          (index_from_sequence (2 ^ j) (st.consumer_sequence r + 1)) =
        st.consumer_sequence r + 1 ∧
      st2.consumer_sequence r = st.consumer_sequence r + 1) ∧
    (st.slot_sequences
        (index_from_sequence (2 ^ j) (st.consumer_sequence r + 1)) ≠
      st.consumer_sequence r + 1 → read (2 ^ j) st r = none) ∧
    (∀ n : Nat, n < (st.read_log r).length →
      pub_val st n = (st.read_log r)[n]?) := by
  refine ⟨?_, ?_, ?_⟩
  · intro val st2 hr
    simp only [read, get_next_read_sequence] at hr
    by_cases hc : st.slot_sequences
        (index_from_sequence (2 ^ j) (st.consumer_sequence r + 1)) =
        st.consumer_sequence r + 1
    · refine ⟨hc, ?_⟩
      rw [if_pos hc] at hr
      cases Option.some.inj hr
      simp only [apply_read]
      rw [Function.update_same]
    · rw [if_neg hc] at hr
      cases hr
  · intro hne
    simp only [read, get_next_read_sequence]
    rw [if_neg hne]
  · intro n hn
    exact (Inv_reachable _ st h).reader_values r n hn

/-- C1: single writer, single reader, both created before any traffic: if the
writer's successive writes carry the values `vs 0, vs 1, ...` (in claim
order), then in every reachable state the value the reader returned from its
`n`-th completed read is `vs n`; moreover the `read(out)` overload assigns the
same value to the caller-supplied destination whatever the destination's prior
contents. -/
theorem C1_spsc_in_order_delivery {V : Type} [Inhabited V]
    (j : Nat) (hj : j ≤ 30) (st : QState V 1 1) (h : Reachable (2 ^ j) st)
    (vs : Nat → V)
    (hw : ∀ n : Nat, n < st.claim_log.length → st.claim_log[n]? = some (vs n))
    (r : Fin 1) (n : Nat) (hn : n < (st.read_log r).length) :
    (st.read_log r)[n]? = some (vs n) ∧
      ∀ d : V, read_into (2 ^ j) st r d = read (2 ^ j) st r := by
  have hInv := Inv_reachable _ st h
  constructor
  · have hval := hInv.reader_values r n hn
    obtain ⟨x, hx⟩ : ∃ x, pub_val st (n : Int) = some x := by
      rw [hval]
      exact ⟨_, List.getElem?_eq_getElem hn⟩
    have hmem := mem_of_lookup _ _ _ hx
    have hclaim := hInv.pub_value _ _ hmem
    have htn : ((n : Int)).toNat = n := by omega
    rw [htn] at hclaim
    have hbound : n < st.claim_log.length := by
      by_contra hge
      rw [List.getElem?_eq_none (by omega)] at hclaim
      cases hclaim
    have hvs := hw n hbound
    rw [hvs] at hclaim
    have hxv : vs n = x := Option.some.inj hclaim
    rw [← hval, hx, hxv]
  · intro d
    rfl

/-- C9: a completed `reader::read` (either overload) changes only the calling
reader's own consumer sequence, which increases by exactly 1: the payload
buffer, all slot stamps, `next_sequence`, every other reader's consumer
sequence and every writer's cached minimum are unchanged, and the out-
parameter overload behaves identically on the queue state. -/
theorem C9_read_frame_effect {V : Type} {R W : Nat} (C : Nat)
    (st : QState V R W) (r : Fin R) (val : V) (st2 : QState V R W)
    (h : read C st r = some (val, st2)) :
    st2.buffer = st.buffer ∧ st2.slot_sequences = st.slot_sequences ∧
      st2.next_sequence = st.next_sequence ∧
      st2.cached_min_consumer_sequence = st.cached_min_consumer_sequence ∧
      st2.phase = st.phase ∧ st2.claim_log = st.claim_log ∧
      st2.pub_log = st.pub_log ∧
      st2.consumer_sequence r = st.consumer_sequence r + 1 ∧
      (∀ r2, r2 ≠ r → st2.consumer_sequence r2 = st.consumer_sequence r2) ∧
      (∀ d : V, read_into C st r d = read C st r) := by
  simp only [read, get_next_read_sequence] at h
  by_cases hc : st.slot_sequences
      (index_from_sequence C (st.consumer_sequence r + 1)) =
      st.consumer_sequence r + 1
  · rw [if_pos hc] at h
    cases Option.some.inj h
    refine ⟨rfl, rfl, rfl, rfl, rfl, rfl, rfl, ?_, ?_, ?_⟩
    · simp only [apply_read]
      rw [Function.update_same]
    · intro r2 hne
      simp only [apply_read]
      rw [Function.update_noteq hne]
    · intro d
      rfl
  · rw [if_neg hc] at h
    cases h

/-
A concrete execution at capacity 1 = 2 ^ 0 with one writer and one reader:
the writer writes the value 10 (claim, wait-exit, payload store and stamp
store), then the reader reads it.  These states instantiate the theorems
above at explicit inputs.
-/

def demo0 : QState Int 1 1 := initial_state Int 1 1

def demo1 : QState Int 1 1 := apply_claim demo0 0 10

def demo2 : QState Int 1 1 := apply_wait_exit demo1 0 0 10

def demo3 : QState Int 1 1 := apply_write_commit (2 ^ 0) demo2 0 0 10

def demo4 : QState Int 1 1 := apply_read (2 ^ 0) demo3 0

theorem demo1_step : Step (2 ^ 0) demo0 demo1 :=
  Step.claim_sequence demo0 0 10 rfl

theorem demo2_step : Step (2 ^ 0) demo1 demo2 :=
  Step.wait_exit demo1 0 0 10 (by decide) (by decide)

theorem demo3_step : Step (2 ^ 0) demo2 demo3 :=
  Step.write_commit demo2 0 0 10 (by decide)

theorem demo4_step : Step (2 ^ 0) demo3 demo4 :=
  Step.reader_read demo3 0 (by decide)

theorem demo2_reachable : Reachable (2 ^ 0) demo2 :=
  Relation.ReflTransGen.head demo1_step
    (Relation.ReflTransGen.single demo2_step)

theorem demo3_reachable : Reachable (2 ^ 0) demo3 :=
  Relation.ReflTransGen.head demo1_step
    (Relation.ReflTransGen.head demo2_step
      (Relation.ReflTransGen.single demo3_step))

theorem demo4_reachable : Reachable (2 ^ 0) demo4 :=
  Relation.ReflTransGen.head demo1_step
    (Relation.ReflTransGen.head demo2_step
      (Relation.ReflTransGen.head demo3_step
        (Relation.ReflTransGen.single demo4_step)))

theorem C5_next_sequence_counts_claims_witness :
    demo4.next_sequence = demo4.claim_log.length ∧
      (initial_state Int 1 1).next_sequence = 0 ∧
      (∀ w v, demo4.claim_log = [] →
        (apply_claim demo4 w v).phase w = WPhase.claimed 0 v) :=
  C5_next_sequence_counts_claims (2 ^ 0) demo4 demo4_reachable

theorem C6_cached_min_is_lower_bound_witness :
    (∀ w, demo4.cached_min_consumer_sequence w ≤
      get_min_consumer_sequence demo4) ∧
      (∀ w v, (apply_claim demo4 w v).cached_min_consumer_sequence =
        demo4.cached_min_consumer_sequence) ∧
      (∀ w s v, (apply_wait_exit demo4 w s v).cached_min_consumer_sequence =
        demo4.cached_min_consumer_sequence) ∧
      (∀ w s v,
        (apply_write_commit (2 ^ 0) demo4 w s v).cached_min_consumer_sequence =
          demo4.cached_min_consumer_sequence) ∧
      (∀ r, (apply_read (2 ^ 0) demo4 r).cached_min_consumer_sequence =
        demo4.cached_min_consumer_sequence) :=
  C6_cached_min_is_lower_bound (2 ^ 0) demo4 demo4_reachable

theorem C2_backpressure_at_payload_store_witness :
    (0 : Int) - ((2 ^ 0 : Nat) : Int) ≤ get_min_consumer_sequence demo2 ∧
      ∀ r : Fin 1, (0 : Int) - ((2 ^ 0 : Nat) : Int) ≤
        demo2.consumer_sequence r :=
  C2_backpressure_at_payload_store 0 (by norm_num) demo2 demo2_reachable
    0 0 10 (by decide)

theorem C4_stamp_invariant_witness :
    ((initial_state Int 1 1).slot_sequences 0 = -1) ∧
      (last_slot_pub (2 ^ 0) demo4 0 = none → demo4.slot_sequences 0 = -1) ∧
      (∀ s v, last_slot_pub (2 ^ 0) demo4 0 = some (s, v) →
        demo4.slot_sequences 0 = s ∧
          demo4.slot_sequences 0 % ((2 ^ 0 : Nat) : Int) = ((0 : Nat) : Int)) :=
  C4_stamp_invariant 0 (by norm_num) demo4 demo4_reachable 0 (by norm_num)

theorem C3_reader_equality_and_completeness_witness :
    (∀ val st2, read (2 ^ 0) demo4 0 = some (val, st2) →
      demo4.slot_sequences
          (index_from_sequence (2 ^ 0) (demo4.consumer_sequence 0 + 1)) =
        demo4.consumer_sequence 0 + 1 ∧
      st2.consumer_sequence 0 = demo4.consumer_sequence 0 + 1) ∧
    (demo4.slot_sequences
        (index_from_sequence (2 ^ 0) (demo4.consumer_sequence 0 + 1)) ≠
      demo4.consumer_sequence 0 + 1 → read (2 ^ 0) demo4 0 = none) ∧
    (∀ n : Nat, n < (demo4.read_log 0).length →
      pub_val demo4 n = (demo4.read_log 0)[n]?) :=
  C3_reader_equality_and_completeness 0 (by norm_num) demo4 demo4_reachable 0

theorem C1_spsc_in_order_delivery_witness :
    (demo4.read_log 0)[0]? = some (10 : Int) ∧
      ∀ d : Int, read_into (2 ^ 0) demo4 0 d = read (2 ^ 0) demo4 0 :=
  C1_spsc_in_order_delivery 0 (by norm_num) demo4 demo4_reachable
    (fun _ => (10 : Int))
    (by
      intro n hn
      have hn2 : n < 1 := hn
      have hz : n = 0 := by omega
      subst hz
      rfl)
    0 0 (by decide)

theorem C9_read_frame_effect_witness :
    demo4.buffer = demo3.buffer ∧
      demo4.slot_sequences = demo3.slot_sequences ∧
      demo4.next_sequence = demo3.next_sequence ∧
      demo4.cached_min_consumer_sequence = demo3.cached_min_consumer_sequence ∧
      demo4.phase = demo3.phase ∧ demo4.claim_log = demo3.claim_log ∧
      demo4.pub_log = demo3.pub_log ∧
      demo4.consumer_sequence 0 = demo3.consumer_sequence 0 + 1 ∧
      (∀ r2, r2 ≠ (0 : Fin 1) →
        demo4.consumer_sequence r2 = demo3.consumer_sequence r2) ∧
      (∀ d : Int, read_into (2 ^ 0) demo3 0 d = read (2 ^ 0) demo3 0) :=
  C9_read_frame_effect (2 ^ 0) demo3 0 10 demo4 rfl
